import Mathlib

/-!
Verification of the pairwise temporal-relation engine and its building blocks
(interval merging, relation aggregation, duration bucketing) of the
analyze-data repository.

The Lean definitions below are shallow embeddings of the Python functions in
pysrc/riffmetrics/utils.py, pysrc/visualize/meetings.py,
pysrc/visualize/meeting_timeline.py and pysrc/visualize/utterance_duration.py.
Utterance dicts become the structure Ut, integer millisecond times become Int,
Python exceptions become an Except value with an explicit exception kind, and
the in-place effects that are visible to a caller (list.sort called on the
caller's list, dict mutation through an aliased accumulator) are modelled by
explicit functions computing the caller-visible state of the argument after
the call returns.
-/

/-- Exception kinds relevant to the modelled code paths.  Python raises
IndexError when a list is indexed out of range; EmptyInputError is the
dedicated error type named by the specification (no such type exists anywhere
in the repository sources). -/
inductive Exc where
  | indexError
  | emptyInputError
deriving DecidableEq, Repr

/-- Decidable equality for Except values, so that concrete runs of the
modelled functions can be checked by decide. -/
instance {ε α : Type} [DecidableEq ε] [DecidableEq α] : DecidableEq (Except ε α) :=
  fun x y =>
    match x, y with
    | Except.error e, Except.error f =>
      if h : e = f then Decidable.isTrue (congrArg Except.error h)
      else Decidable.isFalse (fun hh => h (Except.error.inj hh))
    | Except.error _, Except.ok _ => Decidable.isFalse (fun hh => Except.noConfusion hh)
    | Except.ok _, Except.error _ => Decidable.isFalse (fun hh => Except.noConfusion hh)
    | Except.ok a, Except.ok b =>
      if h : a = b then Decidable.isTrue (congrArg Except.ok h)
      else Decidable.isFalse (fun hh => h (Except.ok.inj hh))

/-- An utterance record: the dict keys participant, start and end used by the
code under analysis.  The end key is written «end» because end is a reserved
word in Lean. -/
structure Ut where
  participant : String
  start : Int
  «end» : Int
deriving DecidableEq, Repr

/-! ## IntervalMerger: merge_utterances (riffmetrics/utils.py lines 44-79) and
join_utterances (visualize/meeting_timeline.py lines 84-96) -/

/-- Python uts.sort(key=lambda ut: ut['start']): a stable ascending sort by
the start key.  A stable sort by a key is extensionally unique, so Mathlib's
insertion sort (which places each element before the first element it is not
strictly after, preserving the original relative order of equal keys) computes
the same list as Python's stable list.sort. -/
def sortUts (uts : List Ut) : List Ut :=
  List.insertionSort (fun a b => a.start ≤ b.start) uts

/-- The merge loop of merge_utterances: cur_ut is the current accumulator,
the second argument is the not-yet-processed tail of the sorted list.  An
utterance closer than min_gap is absorbed by setting the accumulator's end to
ut['end'] (exactly as in the source: cur_ut['end'] = ut['end'], with no max);
otherwise the accumulator is emitted and the next utterance (copied by value)
starts a new accumulator. -/
def mergeLoop (min_gap : Int) : Ut → List Ut → List Ut
  | cur_ut, [] => [cur_ut]
  | cur_ut, ut :: rest =>
    if ut.start - cur_ut.«end» < min_gap then
      mergeLoop min_gap { cur_ut with «end» := ut.«end» } rest
    else
      cur_ut :: mergeLoop min_gap ut rest

/-- merge_utterances(uts, min_gap): sorts (the caller's) uts in place, then
runs the merge loop starting from a copy of the first element.  On an empty
list the expression uts[0].copy() raises IndexError. -/
def merge_utterances (uts : List Ut) (min_gap : Int) : Except Exc (List Ut) :=
  match sortUts uts with
  | [] => Except.error Exc.indexError
  | first :: rest => Except.ok (mergeLoop min_gap first rest)

/-- Caller-visible state of the uts argument after merge_utterances returns:
the list was sorted in place by uts.sort(key=lambda ut: ut['start']); no
element of the list is ever mutated because the accumulator is always a copy
(uts[0].copy() and ut.copy()). -/
def merge_utterances_post (uts : List Ut) : List Ut :=
  sortUts uts

/-- The loop of join_utterances (meeting_timeline.py), which, unlike
merge_utterances, aliases list elements instead of copying them
(cur_ut = uts[0] and cur_ut = ut), so cur_ut['end'] = ut['end'] mutates the
run-leader element inside the caller's list.  This function computes the
caller-visible state of the sorted list after the loop: each run leader
carries the end of the last utterance absorbed into it, and the absorbed
elements themselves remain in the list unmodified.  run accumulates the
absorbed elements of the current run in reverse order. -/
def joinPostLoop (min_gap : Int) : Ut → List Ut → List Ut → List Ut
  | cur_ut, run, [] => cur_ut :: run.reverse
  | cur_ut, run, ut :: rest =>
    if ut.start - cur_ut.«end» < min_gap then
      joinPostLoop min_gap { cur_ut with «end» := ut.«end» } (ut :: run) rest
    else
      (cur_ut :: run.reverse) ++ joinPostLoop min_gap ut [] rest

/-- Caller-visible state of the uts argument after join_utterances returns:
sorted in place, and with every run leader's end mutated through the aliased
accumulator.  Indexing uts[0] on an empty list raises IndexError. -/
def join_utterances_post (uts : List Ut) (min_gap : Int) : Except Exc (List Ut) :=
  match sortUts uts with
  | [] => Except.error Exc.indexError
  | first :: rest => Except.ok (joinPostLoop min_gap first [] rest)

/-- Sum of the durations (end - start) of a list of utterances. -/
def sumDur (uts : List Ut) : Int :=
  (uts.map (fun u => u.«end» - u.start)).sum

/-! ## PairwiseRelationEngine: compute_pairwise_relations
(riffmetrics/utils.py lines 82-156) -/

/-- The sweep loop of compute_pairwise_relations.  The first list argument is
candidate_items, the second is remaining_items.  For each test_item the
candidate list is first filtered by is_possibly_related (when supplied), then
every surviving candidate related to test_item contributes the pair
(candidate, test_item), and test_item is appended to the candidates. -/
def cprLoop {T : Type} (is_related : T → T → Bool)
    (is_possibly_related : Option (T → T → Bool)) :
    List T → List T → List (T × T)
  | _, [] => []
  | candidate_items, test_item :: rest =>
    let candidate_items :=
      match is_possibly_related with
      | none => candidate_items
      | some f => candidate_items.filter (fun item => f test_item item)
    (candidate_items.filter (fun item => is_related item test_item)).map
        (fun item => (item, test_item))
      ++ cprLoop is_related is_possibly_related (candidate_items ++ [test_item]) rest

/-- compute_pairwise_relations(ordered_items, is_related, is_possibly_related).
The source initializes candidate_items = [ordered_items[0]], which raises
IndexError when ordered_items is empty. -/
def compute_pairwise_relations {T : Type} (ordered_items : List T)
    (is_related : T → T → Bool)
    (is_possibly_related : Option (T → T → Bool)) : Except Exc (List (T × T)) :=
  match ordered_items with
  | [] => Except.error Exc.indexError
  | first :: remaining_items =>
    Except.ok (cprLoop is_related is_possibly_related [first] remaining_items)

/-- Modelled from the spec: the brute-force all-pairs scan restricted to
i < j, i.e. all pairs (items[i], items[j]) with i < j and
is_related items[i] items[j] true, grouped by the earlier element. -/
def bruteForcePairs {T : Type} (is_related : T → T → Bool) : List T → List (T × T)
  | [] => []
  | x :: xs =>
    (xs.filter (fun y => is_related x y)).map (fun y => (x, y))
      ++ bruteForcePairs is_related xs

/-- Genuine monotonicity of a pruning predicate f for one candidate c with
respect to the items that come after c: whenever f prunes c at some later
test item t, c is unrelated (by is_related) to t and to every item from t on.
This is the contract stated in the spec for is_possibly_related. -/
def MonoFrom {T : Type} (f is_related : T → T → Bool) (c : T) : List T → Prop
  | [] => True
  | t :: rest =>
    (f t c = false → ∀ u ∈ t :: rest, is_related c u = false) ∧
      MonoFrom f is_related c rest

/-- Genuine monotonicity of a pruning predicate f over a whole ordered item
list: every element is monotonically prunable with respect to the items that
follow it. -/
def MonoList {T : Type} (f is_related : T → T → Bool) : List T → Prop
  | [] => True
  | t :: rest => MonoFrom f is_related t rest ∧ MonoList f is_related rest

/-! ## RelationAggregator: count_relations (riffmetrics/utils.py lines 159-197) -/

/-- One aggregated relation edge: the dict {'key1': key1, 'key2': key2,
'count': count} stored in relation_counts. -/
structure Edge where
  key1 : String
  key2 : String
  count : Nat
deriving DecidableEq, Repr

/-- Lookup in the relation_counts dict, modelled as an association list with
distinct keys (Python dict lookup by the string relation_key). -/
def lookupEdge : List (String × Edge) → String → Option Edge
  | [], _ => none
  | e :: es, k => if e.1 = k then some e.2 else lookupEdge es k

/-- One iteration of the count_relations loop: relation_key is the string
concatenation key1 + key2; an existing edge has its count incremented,
otherwise a new edge with count 1 is inserted. -/
def addRelation {T : Type} (get_item_key : T → String)
    (relation_counts : List (String × Edge)) (relation : T × T) :
    List (String × Edge) :=
  let key1 := get_item_key relation.1
  let key2 := get_item_key relation.2
  let relation_key := key1 ++ key2
  match lookupEdge relation_counts relation_key with
  | some _ =>
    relation_counts.map (fun e =>
      if e.1 = relation_key then (e.1, Edge.mk e.2.key1 e.2.key2 (e.2.count + 1))
      else e)
  | none => relation_counts ++ [(relation_key, ⟨key1, key2, 1⟩)]

/-- count_relations(relations, get_item_key): fold the relations into the
relation_counts dict. -/
def count_relations {T : Type} (relations : List (T × T))
    (get_item_key : T → String) : List (String × Edge) :=
  relations.foldl (addRelation get_item_key) []

/-- The string key under which count_relations files a pair. -/
def relationKey {T : Type} (get_item_key : T → String) (p : T × T) : String :=
  get_item_key p.1 ++ get_item_key p.2

/-- The count stored in the relation_counts dict under key k, or 0 when no
edge with that key exists. -/
def edgeCount (relation_counts : List (String × Edge)) (k : String) : Nat :=
  match lookupEdge relation_counts k with
  | some e => e.count
  | none => 0

/-! ## RelationCatalog: affirmation and interruption predicates
(riffmetrics/utils.py lines 212-293) -/

def AFFIRMATION_MIN_OVERLAP : Int := 250

def AFFIRMATION_MAX_LENGTH : Int := 2000

/-- is_affirmation from get_meeting_affirmations: different owners, overlap
strictly greater than 250 ms, the later utterance shorter than 2000 ms, and
the earlier utterance continuing after the later one stops. -/
def is_affirmation (earlier_ut later_ut : Ut) : Bool :=
  if earlier_ut.participant = later_ut.participant then false
  else
    let sufficient_overlap : Bool :=
      decide (earlier_ut.«end» - later_ut.start > AFFIRMATION_MIN_OVERLAP)
    let short_affirmation : Bool :=
      decide (later_ut.«end» - later_ut.start < AFFIRMATION_MAX_LENGTH)
    let affirmation_ends : Bool :=
      decide (earlier_ut.«end» - later_ut.«end» > 0)
    sufficient_overlap && short_affirmation && affirmation_ends

/-- is_interruption from get_meeting_interruptions, exactly as written in the
source: a verbatim copy of the affirmation predicate body, still using
AFFIRMATION_MIN_OVERLAP, AFFIRMATION_MAX_LENGTH and the
earlier-outlasts-later test. -/
def is_interruption (earlier_ut later_ut : Ut) : Bool :=
  if earlier_ut.participant = later_ut.participant then false
  else
    let sufficient_overlap : Bool :=
      decide (earlier_ut.«end» - later_ut.start > AFFIRMATION_MIN_OVERLAP)
    let short_affirmation : Bool :=
      decide (later_ut.«end» - later_ut.start < AFFIRMATION_MAX_LENGTH)
    let affirmation_ends : Bool :=
      decide (earlier_ut.«end» - later_ut.«end» > 0)
    sufficient_overlap && short_affirmation && affirmation_ends

/-- Modelled from the spec: the documented Interruption relation, which the
doc comment of get_meeting_interruptions describes (overlap of at least one
second, interrupting utterance lasting at least five seconds, and the earlier
speaker stopping before the later speaker stops) but which the function body
does not implement. -/
def is_interruption_documented (earlier_ut later_ut : Ut) : Bool :=
  if earlier_ut.participant = later_ut.participant then false
  else
    decide (earlier_ut.«end» - later_ut.start ≥ 1000) &&
    decide (later_ut.«end» - later_ut.start ≥ 5000) &&
    decide (later_ut.«end» - earlier_ut.«end» > 0)

/-! ## DurationBucketer: inc_bucket (visualize/meetings.py lines 73-92) and
_distribute_durations (visualize/utterance_duration.py lines 106-138) -/

/-- inc_bucket(buckets, v): each bucket is a pair of its max value and its
count; the first bucket whose max value exceeds v has its count incremented
and iteration stops.  When v is not below any bucket max, no count is
incremented (the TODO in the source notes that a final catch-all bucket does
not exist yet). -/
def inc_bucket : List (Int × Nat) → Int → List (Int × Nat)
  | [], _ => []
  | b :: bs, v => if v < b.1 then (b.1, b.2 + 1) :: bs else b :: inc_bucket bs v

/-- Whether some bucket bound in the list of bounds is strictly greater
than v, i.e. whether inc_bucket will count v at all. -/
def fitsSomeBucket (bounds : List Int) (v : Int) : Bool :=
  bounds.any (fun m => v < m)

/-- The bucket boundary list hard-coded in _distribute_durations:
[0, 2, 5] ++ range(10, 300, 10) ++ range(300, 3500, 50) ++
range(3500, 8001, 500) ++ range(10000, 60001, 10000), in milliseconds. -/
def ddBuckets : List Int :=
  ([0, 2, 5] ++ List.range' 10 29 10 ++ List.range' 300 64 50 ++
    List.range' 3500 10 500 ++ List.range' 10000 6 10000).map Int.ofNat

/-- The graph_ranges list returned by _distribute_durations. -/
def ddGraphRanges : List Nat := [1, 33, 97, 107]

/-- The inner while loop of _distribute_durations: starting at bucket_ndx,
append a 0 count and advance while the duration is above the current
boundary, then append the count 1 for the duration being placed.  The fuel
argument is buckets.length - bucket_ndx, which bounds the iterations just as
the loop condition bucket_ndx < len(buckets) does, so the function computes
exactly what the while loop computes. -/
def ddAdvance (buckets : List Int) (duration : Int) :
    Nat → Nat → List Nat → List Nat × Nat
  | 0, bucket_ndx, bucket_cnt => (bucket_cnt ++ [1], bucket_ndx)
  | fuel + 1, bucket_ndx, bucket_cnt =>
    if bucket_ndx < buckets.length ∧ duration > buckets.getD bucket_ndx 0 then
      ddAdvance buckets duration fuel (bucket_ndx + 1) (bucket_cnt ++ [0])
    else (bucket_cnt ++ [1], bucket_ndx)

/-- The main loop of _distribute_durations over the durations list, carrying
the growing bucket_cnt list and the current bucket_ndx. -/
def distributeLoop (buckets : List Int) : List Int → List Nat → Nat → List Nat
  | [], bucket_cnt, _ => bucket_cnt
  | duration :: durations, bucket_cnt, bucket_ndx =>
    if buckets.length ≤ bucket_ndx ∨ duration ≤ buckets.getD bucket_ndx 0 then
      distributeLoop buckets durations
        (bucket_cnt.set bucket_ndx (bucket_cnt.getD bucket_ndx 0 + 1)) bucket_ndx
    else
      let r := ddAdvance buckets duration (buckets.length - (bucket_ndx + 1))
        (bucket_ndx + 1) bucket_cnt
      distributeLoop buckets durations r.1 r.2

/-- _distribute_durations(durations): returns the boundary list, the computed
bucket counts (bucket_cnt starts as [0] with bucket_ndx 0), and the graph
range list. -/
def _distribute_durations (durations : List Int) :
    List Int × List Nat × List Nat :=
  (ddBuckets, distributeLoop ddBuckets durations [0] 0, ddGraphRanges)

/-- The index of the least boundary that is greater than or equal to d, or
the length of the boundary list when d exceeds every boundary: the bucket in
which a correctly placed duration d should be counted. -/
def targetIdx (buckets : List Int) (d : Int) : Nat :=
  match buckets with
  | [] => 0
  | b :: bs => if d ≤ b then 0 else targetIdx bs d + 1

/-- Two utterances in non-overlapping ascending position: the first starts no
later and ends at or before the second starts. -/
def NonOverlap (a b : Ut) : Prop :=
  a.start ≤ b.start ∧ a.«end» ≤ b.start

instance : IsTrans Ut NonOverlap :=
  ⟨fun _ _ _ hab hbc => ⟨le_trans hab.1 hbc.1, le_trans hab.2 hbc.1⟩⟩

/-- The start-key ordering used by the stable sorts is total. -/
instance : IsTotal Ut (fun a b => a.start ≤ b.start) :=
  ⟨fun a b => Int.le_total a.start b.start⟩

/-- The start-key ordering used by the stable sorts is transitive. -/
instance : IsTrans Ut (fun a b => a.start ≤ b.start) :=
  ⟨fun _ _ _ hab hbc => le_trans hab hbc⟩

/-! ## Theorems -/

/-- Helper: joinPostLoop never changes which utterances are in the caller's
list or their participants and start times; only end fields of run leaders
are rewritten.  Projecting each element to (participant, start) therefore
gives the same list as projecting the sorted input. -/
theorem joinPostLoop_map_key (min_gap : Int) :
    ∀ (rest : List Ut) (cur_ut : Ut) (run : List Ut),
      (joinPostLoop min_gap cur_ut run rest).map (fun u => (u.participant, u.start)) =
        (cur_ut.participant, cur_ut.start) ::
          (run.reverse.map (fun u => (u.participant, u.start)) ++
            rest.map (fun u => (u.participant, u.start))) := by
  intro rest
  induction rest with
  | nil => intro cur_ut run; simp [joinPostLoop]
  | cons ut rest ih =>
    intro cur_ut run
    by_cases h : ut.start - cur_ut.«end» < min_gap
    · rw [joinPostLoop, if_pos h, ih]
      simp
    · rw [joinPostLoop, if_neg h]
      simp [ih]

/-- C2: the Interruption relation predicate in the source is a verbatim copy
of the affirmation predicate and contradicts its own documentation: on the
pair earlier = (A, 0, 2000), later = (B, 500, 1500) the code returns true
although the documented relation (overlap at least 1000 ms, interrupting
utterance at least 5000 ms, earlier speaker stops first) is false, and on
earlier = (A, 0, 3000), later = (B, 1000, 8000) the code returns false
although the documented relation is true. -/
theorem C2_interruption_code_contradicts_doc :
    is_interruption ⟨"A", 0, 2000⟩ ⟨"B", 500, 1500⟩ = true ∧
    is_interruption_documented ⟨"A", 0, 2000⟩ ⟨"B", 500, 1500⟩ = false ∧
    is_interruption ⟨"A", 0, 3000⟩ ⟨"B", 1000, 8000⟩ = false ∧
    is_interruption_documented ⟨"A", 0, 3000⟩ ⟨"B", 1000, 8000⟩ = true ∧
    (∀ earlier_ut later_ut : Ut,
      is_interruption earlier_ut later_ut = is_affirmation earlier_ut later_ut) := by
  refine ⟨by decide, by decide, by decide, by decide, fun earlier_ut later_ut => rfl⟩

/-- C3 counterexample: the caller's list is not unchanged after merge.
merge_utterances sorts the caller's list in place, so an unsorted input is
reordered, and join_utterances additionally mutates the run-leader element
inside the caller's list (its end becomes the end of the absorbed
utterance). -/
theorem C3_counterexample_input_mutated :
    merge_utterances_post [⟨"A", 10, 20⟩, ⟨"A", 0, 5⟩] ≠ [⟨"A", 10, 20⟩, ⟨"A", 0, 5⟩] ∧
    join_utterances_post [⟨"A", 0, 100⟩, ⟨"A", 10, 20⟩] 1000 =
      Except.ok [⟨"A", 0, 20⟩, ⟨"A", 10, 20⟩] ∧
    (⟨"A", 0, 20⟩ : Ut) ≠ ⟨"A", 0, 100⟩ := by
  refine ⟨by decide, by decide, by decide⟩

/-- C3 amended: merge_utterances sorts the caller's list in place, so after
the call the caller's sequence holds the same utterance values reordered
stably ascending by start (a permutation; no individual utterance value is
mutated because the accumulator is always a copy); join_utterances also sorts
in place and in addition mutates run-leader elements, but only their end
fields: the participant and start of every element of the caller's list are
preserved. -/
theorem C3_amended_inplace_sort (uts : List Ut) :
    (merge_utterances_post uts).Perm uts ∧
    List.Sorted (fun a b : Ut => a.start ≤ b.start) (merge_utterances_post uts) ∧
    ∀ (min_gap : Int) (l : List Ut), join_utterances_post uts min_gap = Except.ok l →
      l.map (fun u => (u.participant, u.start)) =
        (sortUts uts).map (fun u => (u.participant, u.start)) := by
  refine ⟨List.perm_insertionSort _ uts, List.sorted_insertionSort _ uts, ?_⟩
  intro min_gap l hl
  unfold join_utterances_post at hl
  cases hsort : sortUts uts with
  | nil => rw [hsort] at hl; exact absurd hl (by simp)
  | cons first rest =>
    rw [hsort] at hl
    simp only [Except.ok.injEq] at hl
    subst hl
    rw [joinPostLoop_map_key]
    simp [hsort]

/-- C3 witness: the amended statement evaluated at a concrete input. -/
theorem C3_amended_inplace_sort_witness :
    ([⟨"A", 0, 5⟩] : List Ut).map (fun u => (u.participant, u.start)) =
      (sortUts [⟨"A", 0, 5⟩]).map (fun u => (u.participant, u.start)) :=
  (C3_amended_inplace_sort [⟨"A", 0, 5⟩]).2.2 0 [⟨"A", 0, 5⟩] (by decide)

/-- C4 counterexample: absorbing an utterance wholly contained in the current
accumulator shrinks the accumulator's end.  Merging (A, 0, 100) with the
contained (A, 10, 20) under min_gap 1000 yields end 20, not
max(100, 20) = 100. -/
theorem C4_counterexample_absorb_shrinks :
    merge_utterances [⟨"A", 0, 100⟩, ⟨"A", 10, 20⟩] 1000 =
      Except.ok [⟨"A", 0, 20⟩] ∧ (20 : Int) ≠ max 100 20 := by
  refine ⟨by decide, by decide⟩

/-- C4 amended: when the next utterance ut is absorbed into the current
accumulator (because ut.start - current.end < min_gap), the accumulator's end
becomes ut.end, not max(current.end, ut.end); in particular absorbing an
utterance wholly contained in the accumulator shrinks the accumulator's end
whenever ut.end < current.end. -/
theorem C4_amended_absorb_sets_end (a b : Ut) (min_gap : Int)
    (horder : a.start ≤ b.start) (habsorb : b.start - a.«end» < min_gap) :
    merge_utterances [a, b] min_gap = Except.ok [{ a with «end» := b.«end» }] := by
  have hsort : sortUts [a, b] = [a, b] := by
    simp [sortUts, List.insertionSort, List.orderedInsert, horder]
  rw [merge_utterances, hsort]
  simp [mergeLoop, habsorb]

/-- C4 witness: the amended absorb step evaluated at a concrete input. -/
theorem C4_amended_absorb_sets_end_witness :
    merge_utterances [⟨"A", 0, 5⟩, ⟨"A", 3, 9⟩] 2 = Except.ok [⟨"A", 0, 9⟩] :=
  C4_amended_absorb_sets_end ⟨"A", 0, 5⟩ ⟨"A", 3, 9⟩ 2 (by decide) (by decide)

/-- C5 counterexample: compute_pairwise_relations applied to an empty item
sequence does not yield an empty result; indexing ordered_items[0] raises
IndexError. -/
theorem C5_counterexample_empty_raises :
    compute_pairwise_relations ([] : List Ut) is_affirmation none =
      Except.error Exc.indexError := by decide

/-- C5 amended: compute_pairwise_relations applied to a sequence of length 1
returns an empty result without failure, for every pair of predicates; but
applied to a sequence of length 0 it fails, raising IndexError from
ordered_items[0]. -/
theorem C5_amended_edge_cases {T : Type} (x : T) (is_related : T → T → Bool)
    (is_possibly_related : Option (T → T → Bool)) :
    compute_pairwise_relations [x] is_related is_possibly_related = Except.ok [] ∧
    compute_pairwise_relations ([] : List T) is_related is_possibly_related =
      Except.error Exc.indexError := by
  exact ⟨by simp [compute_pairwise_relations, cprLoop], rfl⟩

/-- C6 counterexample: merge_utterances on an empty sequence raises the
generic IndexError (from uts[0].copy()), not a dedicated EmptyInputError. -/
theorem C6_counterexample_index_error :
    merge_utterances [] 0 = Except.error Exc.indexError ∧
    Exc.indexError ≠ Exc.emptyInputError := by
  refine ⟨by decide, by decide⟩

/-- C6 amended: merge_utterances applied to an empty interval sequence fails
for every min_gap, but by raising the generic IndexError from indexing the
first element; no dedicated EmptyInputError type exists in the repository. -/
theorem C6_amended_empty_fails (min_gap : Int) :
    merge_utterances [] min_gap = Except.error Exc.indexError := rfl


/-- Helper: the central invariants of the merge loop.  Starting from an
accumulator cur_ut and a start-sorted remainder, the loop output is nonempty,
begins at cur_ut.start, is ordered by start, is chained non-overlapping when
min_gap is nonnegative, and has total duration at most that of the consumed
input when min_gap is nonpositive. -/
theorem mergeLoop_spec (min_gap : Int) :
    ∀ (rest : List Ut) (cur_ut : Ut),
      List.Chain' (fun a b : Ut => a.start ≤ b.start) (cur_ut :: rest) →
      ∃ (h : Ut) (t : List Ut), mergeLoop min_gap cur_ut rest = h :: t ∧
        h.start = cur_ut.start ∧
        List.Chain' (fun a b : Ut => a.start ≤ b.start) (h :: t) ∧
        (0 ≤ min_gap → List.Chain' NonOverlap (h :: t)) ∧
        (min_gap ≤ 0 → sumDur (h :: t) ≤ sumDur (cur_ut :: rest)) := by
  intro rest
  induction rest with
  | nil =>
    intro cur_ut _
    exact ⟨cur_ut, [], rfl, rfl, List.chain'_singleton _, fun _ => List.chain'_singleton _,
      fun _ => le_refl _⟩
  | cons ut rest ih =>
    intro cur_ut hch
    have hcu : cur_ut.start ≤ ut.start := (List.chain'_cons.mp hch).1
    have hch2 : List.Chain' (fun a b : Ut => a.start ≤ b.start) (ut :: rest) :=
      (List.chain'_cons.mp hch).2
    by_cases hc : ut.start - cur_ut.«end» < min_gap
    · -- absorb: the accumulator's end becomes ut.end
      have hh := List.chain'_cons'.mp hch2
      have hch3 : List.Chain' (fun a b : Ut => a.start ≤ b.start)
          ({ cur_ut with «end» := ut.«end» } :: rest) := by
        refine List.Chain'.cons' hh.2 ?_
        intro y hy
        exact le_trans hcu (hh.1 y hy)
      obtain ⟨h, t, heq, hstart, hchain, hno, hsum⟩ := ih _ hch3
      refine ⟨h, t, ?_, ?_, hchain, hno, ?_⟩
      · rw [mergeLoop, if_pos hc]; exact heq
      · exact hstart
      · intro hg
        have := hsum hg
        have hlt : ut.start < cur_ut.«end» := by linarith
        simp only [sumDur, List.map_cons, List.sum_cons] at this ⊢
        linarith
    · -- emit cur_ut, restart from ut
      obtain ⟨h, t, heq, hstart, hchain, hno, hsum⟩ := ih _ hch2
      refine ⟨cur_ut, h :: t, ?_, rfl, ?_, ?_, ?_⟩
      · rw [mergeLoop, if_neg hc, heq]
      · exact List.Chain'.cons (by rw [hstart]; exact hcu) hchain
      · intro hg
        refine List.Chain'.cons ?_ (hno hg)
        constructor
        · rw [hstart]; exact hcu
        · rw [hstart]; linarith
      · intro hg
        have := hsum hg
        simp only [sumDur, List.map_cons, List.sum_cons] at this ⊢
        linarith

/-- C9 counterexample: with a positive min_gap, merging across a real gap
absorbs the gap into one interval and the merged total duration exceeds the
input total duration (25 > 20 here); and with a negative min_gap, two
overlapping intervals are both emitted, so the output is not pairwise
non-overlapping. -/
theorem C9_counterexample_duration_and_overlap :
    merge_utterances [⟨"A", 0, 10⟩, ⟨"A", 15, 25⟩] 100 = Except.ok [⟨"A", 0, 25⟩] ∧
    sumDur [(⟨"A", 0, 25⟩ : Ut)] > sumDur [(⟨"A", 0, 10⟩ : Ut), ⟨"A", 15, 25⟩] ∧
    merge_utterances [⟨"A", 0, 10⟩, ⟨"A", 7, 20⟩] (-5) =
      Except.ok [⟨"A", 0, 10⟩, ⟨"A", 7, 20⟩] ∧
    ¬ NonOverlap ⟨"A", 0, 10⟩ ⟨"A", 7, 20⟩ := by
  refine ⟨by decide, by decide, by decide, fun hn => absurd hn.2 (by decide)⟩

/-- C9 amended: for every interval list X and min_gap g, the output of
merge(X, g) is ordered ascending by start; when g is nonnegative the output
intervals are in addition pairwise non-overlapping (each ends at or before
every later one starts); and when g is nonpositive the total duration of the
merged intervals is at most the total duration of the input intervals.
(For positive g the duration bound fails because bridged gaps are absorbed,
and for negative g overlapping intervals can both be emitted.) -/
theorem C9_amended_merge_properties (uts : List Ut) (min_gap : Int) (l : List Ut)
    (hok : merge_utterances uts min_gap = Except.ok l) :
    List.Chain' (fun a b : Ut => a.start ≤ b.start) l ∧
    (0 ≤ min_gap → List.Pairwise NonOverlap l) ∧
    (min_gap ≤ 0 → sumDur l ≤ sumDur uts) := by
  unfold merge_utterances at hok
  cases hsort : sortUts uts with
  | nil => rw [hsort] at hok; exact absurd hok (by simp)
  | cons first rest =>
    rw [hsort] at hok
    simp only [Except.ok.injEq] at hok
    subst hok
    have hsorted : List.Chain' (fun a b : Ut => a.start ≤ b.start) (first :: rest) := by
      have hs := List.sorted_insertionSort (fun a b : Ut => a.start ≤ b.start) uts
      rw [show List.insertionSort (fun a b : Ut => a.start ≤ b.start) uts = sortUts uts
        from rfl, hsort] at hs
      exact hs.chain'
    obtain ⟨h, t, heq, _, hchain, hno, hsum⟩ := mergeLoop_spec min_gap rest first hsorted
    rw [heq]
    refine ⟨hchain, fun hg => List.chain'_iff_pairwise.mp (hno hg), fun hg => ?_⟩
    have h1 := hsum hg
    have hperm : (sortUts uts).Perm uts := List.perm_insertionSort _ uts
    have h2 : sumDur (sortUts uts) = sumDur uts := List.Perm.sum_eq (hperm.map _)
    rw [hsort] at h2
    linarith

/-- C9 witness: the amended duration bound evaluated at a concrete input
(min_gap 0, two overlapping utterances merged into one). -/
theorem C9_amended_merge_properties_witness :
    sumDur [(⟨"A", 0, 20⟩ : Ut)] ≤ sumDur [(⟨"A", 0, 10⟩ : Ut), ⟨"A", 5, 20⟩] :=
  (C9_amended_merge_properties [⟨"A", 0, 10⟩, ⟨"A", 5, 20⟩] 0 [⟨"A", 0, 20⟩]
    (by decide)).2.2 (by decide)

/-- Helper: unfolding the sweep loop one step when a pruning predicate is
supplied. -/
theorem cprLoop_some_cons {T : Type} (is_related f : T → T → Bool)
    (cands : List T) (t : T) (rest : List T) :
    cprLoop is_related (some f) cands (t :: rest) =
      ((cands.filter (fun c => f t c)).filter (fun c => is_related c t)).map
          (fun c => (c, t))
        ++ cprLoop is_related (some f) (cands.filter (fun c => f t c) ++ [t]) rest := rfl

/-- Helper: unfolding the sweep loop one step when no pruning predicate is
supplied. -/
theorem cprLoop_none_cons {T : Type} (is_related : T → T → Bool)
    (cands : List T) (t : T) (rest : List T) :
    cprLoop is_related none cands (t :: rest) =
      (cands.filter (fun c => is_related c t)).map (fun c => (c, t))
        ++ cprLoop is_related none (cands ++ [t]) rest := rfl

/-- Helper: membership in the brute-force pair list, one cons step. -/
theorem mem_bruteForcePairs_cons {T : Type} (is_related : T → T → Bool)
    (x : T) (xs : List T) (p : T × T) :
    p ∈ bruteForcePairs is_related (x :: xs) ↔
      (∃ u ∈ xs, is_related x u = true ∧ p = (x, u)) ∨
        p ∈ bruteForcePairs is_related xs := by
  constructor
  · intro hp
    simp only [bruteForcePairs] at hp
    rcases List.mem_append.mp hp with h1 | h2
    · rcases List.mem_map.mp h1 with ⟨u, hu, hpu⟩
      rcases List.mem_filter.mp hu with ⟨humem, hurel⟩
      exact Or.inl ⟨u, humem, hurel, hpu.symm⟩
    · exact Or.inr h2
  · intro hp
    simp only [bruteForcePairs]
    rcases hp with ⟨u, humem, hurel, rfl⟩ | h2
    · exact List.mem_append.mpr
        (Or.inl (List.mem_map.mpr ⟨u, List.mem_filter.mpr ⟨humem, hurel⟩, rfl⟩))
    · exact List.mem_append.mpr (Or.inr h2)

/-- Helper: membership in the brute-force pair list is exactly membership in
the set of pairs (items[i], items[j]) with i < j for which is_related holds,
as the spec phrases it. -/
theorem mem_bruteForcePairs_iff_get {T : Type} (is_related : T → T → Bool) :
    ∀ (l : List T) (p : T × T),
      p ∈ bruteForcePairs is_related l ↔
        ∃ (i j : Nat) (hi : i < l.length) (hj : j < l.length), i < j ∧
          is_related (l.get ⟨i, hi⟩) (l.get ⟨j, hj⟩) = true ∧
          p = (l.get ⟨i, hi⟩, l.get ⟨j, hj⟩) := by
  intro l
  induction l with
  | nil =>
    intro p
    simp [bruteForcePairs]
  | cons x xs ih =>
    intro p
    rw [mem_bruteForcePairs_cons, ih]
    constructor
    · rintro (⟨u, hum, hrel, rfl⟩ | ⟨i, j, hi, hj, hij, hrel, rfl⟩)
      · obtain ⟨⟨k, hk⟩, hku⟩ := List.mem_iff_get.mp hum
        subst hku
        exact ⟨0, k + 1, Nat.succ_pos _, Nat.succ_lt_succ hk, Nat.succ_pos _, hrel, rfl⟩
      · exact ⟨i + 1, j + 1, Nat.succ_lt_succ hi, Nat.succ_lt_succ hj,
          Nat.succ_lt_succ hij, hrel, rfl⟩
    · rintro ⟨i, j, hi, hj, hij, hrel, rfl⟩
      cases i with
      | zero =>
        cases j with
        | zero => exact absurd hij (lt_irrefl 0)
        | succ j' =>
          have hj' : j' < xs.length := Nat.lt_of_succ_lt_succ hj
          exact Or.inl ⟨xs.get ⟨j', hj'⟩, xs.get_mem _ _, hrel, rfl⟩
      | succ i' =>
        cases j with
        | zero => exact absurd hij (by omega)
        | succ j' =>
          have hi' : i' < xs.length := Nat.lt_of_succ_lt_succ hi
          have hj' : j' < xs.length := Nat.lt_of_succ_lt_succ hj
          exact Or.inr ⟨i', j', hi', hj', Nat.lt_of_succ_lt_succ hij, hrel, rfl⟩

/-- Helper: the central invariant of the pruned sweep.  When every current
candidate is monotonically prunable against the remaining items and the
remaining items are monotonically prunable among themselves, a pair is
emitted by the pruned loop exactly when it is a related candidate/remaining
pair or a brute-force pair of the remaining items. -/
theorem cprLoop_some_mem {T : Type} (is_related f : T → T → Bool) :
    ∀ (rest cands : List T),
      (∀ c ∈ cands, MonoFrom f is_related c rest) →
      MonoList f is_related rest →
      ∀ p : T × T,
        p ∈ cprLoop is_related (some f) cands rest ↔
          ((∃ c ∈ cands, ∃ u ∈ rest, is_related c u = true ∧ p = (c, u)) ∨
            p ∈ bruteForcePairs is_related rest) := by
  intro rest
  induction rest with
  | nil =>
    intro cands _ _ p
    simp [cprLoop, bruteForcePairs]
  | cons t rest ih =>
    intro cands hc hm p
    have hm1 : MonoFrom f is_related t rest := hm.1
    have hm2 : MonoList f is_related rest := hm.2
    have hcand2 : ∀ c ∈ cands.filter (fun c => f t c) ++ [t],
        MonoFrom f is_related c rest := by
      intro c hcm
      rcases List.mem_append.mp hcm with h1 | h2
      · exact (hc c (List.mem_of_mem_filter h1)).2
      · have hct : c = t := List.mem_singleton.mp h2
        subst hct
        exact hm1
    have hIH := ih (cands.filter (fun c => f t c) ++ [t]) hcand2 hm2 p
    rw [cprLoop_some_cons, mem_bruteForcePairs_cons]
    constructor
    · intro hp
      rcases List.mem_append.mp hp with h1 | h2
      · rcases List.mem_map.mp h1 with ⟨c, hcf, hpc⟩
        rcases List.mem_filter.mp hcf with ⟨hcf2, hrel⟩
        exact Or.inl ⟨c, List.mem_of_mem_filter hcf2, t, List.mem_cons_self t rest,
          hrel, hpc.symm⟩
      · rcases hIH.mp h2 with ⟨c, hcm, u, hum, hrel, rfl⟩ | hbr
        · rcases List.mem_append.mp hcm with hcf | hct
          · exact Or.inl ⟨c, List.mem_of_mem_filter hcf, u,
              List.mem_cons_of_mem t hum, hrel, rfl⟩
          · have hct2 : c = t := List.mem_singleton.mp hct
            subst hct2
            exact Or.inr (Or.inl ⟨u, hum, hrel, rfl⟩)
        · exact Or.inr (Or.inr hbr)
    · intro hp
      rcases hp with ⟨c, hcm, u, hum, hrel, rfl⟩ | ⟨u, hum, hrel, rfl⟩ | hbr
      · rcases List.mem_cons.mp hum with heq | humr
        · subst heq
          by_cases hf : f u c = true
          · refine List.mem_append.mpr (Or.inl ?_)
            exact List.mem_map.mpr ⟨c,
              List.mem_filter.mpr ⟨List.mem_filter.mpr ⟨hcm, hf⟩, hrel⟩, rfl⟩
          · have hf0 : f u c = false := Bool.eq_false_iff.mpr hf
            have hdead := (hc c hcm).1 hf0 u (List.mem_cons_self u rest)
            exact absurd hrel (by simp [hdead])
        · by_cases hf : f t c = true
          · refine List.mem_append.mpr (Or.inr ?_)
            exact hIH.mpr (Or.inl ⟨c,
              List.mem_append.mpr (Or.inl (List.mem_filter.mpr ⟨hcm, hf⟩)),
              u, humr, hrel, rfl⟩)
          · have hf0 : f t c = false := Bool.eq_false_iff.mpr hf
            have hdead := (hc c hcm).1 hf0 u (List.mem_cons_of_mem t humr)
            exact absurd hrel (by simp [hdead])
      · refine List.mem_append.mpr (Or.inr ?_)
        exact hIH.mpr (Or.inl ⟨t,
          List.mem_append.mpr (Or.inr (List.mem_singleton.mpr rfl)),
          u, hum, hrel, rfl⟩)
      · exact List.mem_append.mpr (Or.inr (hIH.mpr (Or.inr hbr)))

/-- Helper: the same characterization for the unpruned sweep, which needs no
monotonicity hypothesis. -/
theorem cprLoop_none_mem {T : Type} (is_related : T → T → Bool) :
    ∀ (rest cands : List T) (p : T × T),
      p ∈ cprLoop is_related none cands rest ↔
        ((∃ c ∈ cands, ∃ u ∈ rest, is_related c u = true ∧ p = (c, u)) ∨
          p ∈ bruteForcePairs is_related rest) := by
  intro rest
  induction rest with
  | nil =>
    intro cands p
    simp [cprLoop, bruteForcePairs]
  | cons t rest ih =>
    intro cands p
    rw [cprLoop_none_cons, mem_bruteForcePairs_cons]
    constructor
    · intro hp
      rcases List.mem_append.mp hp with h1 | h2
      · rcases List.mem_map.mp h1 with ⟨c, hcf, hpc⟩
        rcases List.mem_filter.mp hcf with ⟨hcm, hrel⟩
        exact Or.inl ⟨c, hcm, t, List.mem_cons_self t rest, hrel, hpc.symm⟩
      · rcases (ih (cands ++ [t]) p).mp h2 with ⟨c, hcm, u, hum, hrel, rfl⟩ | hbr
        · rcases List.mem_append.mp hcm with hcc | hct
          · exact Or.inl ⟨c, hcc, u, List.mem_cons_of_mem t hum, hrel, rfl⟩
          · have hct2 : c = t := List.mem_singleton.mp hct
            subst hct2
            exact Or.inr (Or.inl ⟨u, hum, hrel, rfl⟩)
        · exact Or.inr (Or.inr hbr)
    · intro hp
      rcases hp with ⟨c, hcm, u, hum, hrel, rfl⟩ | ⟨u, hum, hrel, rfl⟩ | hbr
      · rcases List.mem_cons.mp hum with heq | humr
        · subst heq
          refine List.mem_append.mpr (Or.inl ?_)
          exact List.mem_map.mpr ⟨c, List.mem_filter.mpr ⟨hcm, hrel⟩, rfl⟩
        · refine List.mem_append.mpr (Or.inr ?_)
          exact (ih (cands ++ [t]) _).mpr (Or.inl ⟨c,
            List.mem_append.mpr (Or.inl hcm), u, humr, hrel, rfl⟩)
      · refine List.mem_append.mpr (Or.inr ?_)
        exact (ih (cands ++ [t]) _).mpr (Or.inl ⟨t,
          List.mem_append.mpr (Or.inr (List.mem_singleton.mpr rfl)),
          u, hum, hrel, rfl⟩)
      · exact List.mem_append.mpr (Or.inr ((ih (cands ++ [t]) _).mpr (Or.inr hbr)))

/-- C1 counterexample: on the empty item sequence, compute_pairwise_relations
does not return the (empty) brute-force pair set; it raises IndexError from
the unguarded ordered_items[0]. -/
theorem C1_counterexample_empty_sequence :
    compute_pairwise_relations ([] : List Nat) (fun _ _ => true) none =
      Except.error Exc.indexError ∧
    bruteForcePairs (fun _ _ => true) ([] : List Nat) = [] ∧
    (Except.error Exc.indexError : Except Exc (List (Nat × Nat))) ≠
      Except.ok [] := by
  refine ⟨by decide, by decide, by decide⟩

/-- C1 amended: for every NONEMPTY ordered item sequence and every is_related
predicate, compute_pairwise_relations with a genuinely monotone pruning
predicate, and likewise with none, returns exactly the set of pairs
(items[i], items[j]) with i < j for which is_related(items[i], items[j]) is
true - identical to the brute-force all-pairs scan restricted to i < j, so
supplying a pruning predicate never changes the result set.  (On the empty
sequence it instead raises IndexError.) -/
theorem C1_amended_engine_matches_bruteforce {T : Type} (items : List T)
    (is_related f : T → T → Bool) (p : T × T) (l lnone : List (T × T))
    (hmono : MonoList f is_related items) (hne : items ≠ [])
    (hl : compute_pairwise_relations items is_related (some f) = Except.ok l)
    (hlnone : compute_pairwise_relations items is_related none = Except.ok lnone) :
    (p ∈ l ↔ p ∈ bruteForcePairs is_related items) ∧
      (p ∈ lnone ↔ p ∈ bruteForcePairs is_related items) := by
  cases items with
  | nil => exact absurd rfl hne
  | cons first rest =>
    simp only [compute_pairwise_relations, Except.ok.injEq] at hl hlnone
    subst hl
    subst hlnone
    have hc1 : ∀ c ∈ [first], MonoFrom f is_related c rest := by
      intro c hcm
      have hcf : c = first := List.mem_singleton.mp hcm
      subst hcf
      exact hmono.1
    constructor
    · rw [cprLoop_some_mem is_related f rest [first] hc1 hmono.2 p,
        mem_bruteForcePairs_cons]
      constructor
      · rintro (⟨c, hcm, u, hum, hrel, rfl⟩ | hbr)
        · have hcf : c = first := List.mem_singleton.mp hcm
          subst hcf
          exact Or.inl ⟨u, hum, hrel, rfl⟩
        · exact Or.inr hbr
      · rintro (⟨u, hum, hrel, rfl⟩ | hbr)
        · exact Or.inl ⟨first, List.mem_singleton.mpr rfl, u, hum, hrel, rfl⟩
        · exact Or.inr hbr
    · rw [cprLoop_none_mem is_related rest [first] p, mem_bruteForcePairs_cons]
      constructor
      · rintro (⟨c, hcm, u, hum, hrel, rfl⟩ | hbr)
        · have hcf : c = first := List.mem_singleton.mp hcm
          subst hcf
          exact Or.inl ⟨u, hum, hrel, rfl⟩
        · exact Or.inr hbr
      · rintro (⟨u, hum, hrel, rfl⟩ | hbr)
        · exact Or.inl ⟨first, List.mem_singleton.mpr rfl, u, hum, hrel, rfl⟩
        · exact Or.inr hbr

/-- C1 witness: the amended equivalence evaluated at the concrete items
[0, 1, 2] with the less-than relation, the trivially monotone pruning
predicate that never prunes, and the pair (0, 2). -/
theorem C1_amended_engine_matches_bruteforce_witness :
    ((0, 2) ∈ [((0 : Nat), (1 : Nat)), (0, 2), (1, 2)] ↔
      (0, 2) ∈ bruteForcePairs (fun a b => decide (a < b)) [0, 1, 2]) ∧
    ((0, 2) ∈ [((0 : Nat), (1 : Nat)), (0, 2), (1, 2)] ↔
      (0, 2) ∈ bruteForcePairs (fun a b => decide (a < b)) [0, 1, 2]) :=
  C1_amended_engine_matches_bruteforce [0, 1, 2] (fun a b => decide (a < b))
    (fun _ _ => true) (0, 2) [(0, 1), (0, 2), (1, 2)] [(0, 1), (0, 2), (1, 2)]
    (by simp [MonoList, MonoFrom]) (by decide) (by decide) (by decide)

/-- Helper: looking up a key in the mapped edge list that increments every
entry whose key equals rk. -/
theorem lookupEdge_map_bump (rk : String) :
    ∀ (m : List (String × Edge)) (k : String),
      lookupEdge (m.map (fun e =>
          if e.1 = rk then (e.1, Edge.mk e.2.key1 e.2.key2 (e.2.count + 1))
          else e)) k =
        if k = rk then
          (lookupEdge m k).map (fun ed => Edge.mk ed.key1 ed.key2 (ed.count + 1))
        else lookupEdge m k := by
  intro m
  induction m with
  | nil =>
    intro k
    simp only [List.map_nil, lookupEdge]
    split <;> rfl
  | cons e es ih =>
    intro k
    by_cases hak : e.1 = k
    · by_cases hark : e.1 = rk
      · have hkrk : k = rk := hak ▸ hark
        simp only [List.map_cons, if_pos hark, lookupEdge, hak, if_pos rfl, if_pos hkrk]
        rfl
      · have hkrk : ¬ k = rk := fun h => hark (hak.trans h)
        simp only [List.map_cons, if_neg hark, lookupEdge, if_pos hak, if_neg hkrk]
    · by_cases hark : e.1 = rk
      · simp only [List.map_cons, if_pos hark, lookupEdge, if_neg hak, ih k]
      · simp only [List.map_cons, if_neg hark, lookupEdge, if_neg hak, ih k]

/-- Helper: looking up a key after appending a fresh single entry. -/
theorem lookupEdge_append_single (rk : String) (ed : Edge) :
    ∀ (m : List (String × Edge)) (k : String),
      lookupEdge (m ++ [(rk, ed)]) k =
        match lookupEdge m k with
        | some e => some e
        | none => if rk = k then some ed else none := by
  intro m
  induction m with
  | nil =>
    intro k
    simp [lookupEdge]
  | cons e es ih =>
    intro k
    by_cases hak : e.1 = k
    · simp [lookupEdge, hak]
    · rw [List.cons_append]
      simp only [lookupEdge, if_neg hak]
      exact ih k

/-- Helper: one count_relations step adds exactly one to the count stored
under the processed pair's concatenated key and leaves every other count
unchanged. -/
theorem edgeCount_addRelation {T : Type} (get_item_key : T → String)
    (m : List (String × Edge)) (p : T × T) (k : String) :
    edgeCount (addRelation get_item_key m p) k =
      edgeCount m k + (if relationKey get_item_key p = k then 1 else 0) := by
  have hrk : relationKey get_item_key p = get_item_key p.1 ++ get_item_key p.2 := rfl
  unfold addRelation edgeCount
  cases hlk : lookupEdge m (get_item_key p.1 ++ get_item_key p.2) with
  | some e =>
    simp only [hlk]
    rw [lookupEdge_map_bump]
    by_cases hk : k = get_item_key p.1 ++ get_item_key p.2
    · rw [if_pos hk, hk, hlk, hrk]
      simp
    · rw [if_neg hk, hrk, if_neg (Ne.symm hk)]
      simp
  | none =>
    simp only [hlk]
    rw [lookupEdge_append_single]
    by_cases hk : k = get_item_key p.1 ++ get_item_key p.2
    · subst hk
      rw [hlk, hrk]
      simp
    · rw [hrk]
      cases hlk2 : lookupEdge m k with
      | some e2 => simp [hlk2, if_neg (Ne.symm hk)]
      | none => simp [hlk2, if_neg (Ne.symm hk)]

/-- Helper: after folding a pair list into the relation_counts dict, the
count stored under any key k is the initial count plus the number of pairs
whose concatenated key equals k. -/
theorem edgeCount_count_relations {T : Type} (get_item_key : T → String) :
    ∀ (rels : List (T × T)) (m : List (String × Edge)) (k : String),
      edgeCount (rels.foldl (addRelation get_item_key) m) k =
        edgeCount m k +
          rels.countP (fun p => decide (relationKey get_item_key p = k)) := by
  intro rels
  induction rels with
  | nil => intro m k; simp
  | cons p rels ih =>
    intro m k
    rw [List.foldl_cons, ih, edgeCount_addRelation, List.countP_cons]
    by_cases h : relationKey get_item_key p = k <;> simp [h] <;> omega

/-- C7 counterexample: count_relations keys edges by the string
concatenation key1 + key2, so the two pairs with the distinct ordered key
pairs ("x", "xx") and ("xx", "x") are conflated into the single edge keyed
"xxx", whose count is 2. -/
theorem C7_counterexample_concatenation_conflates :
    count_relations [(("x" : String), ("xx" : String)), ("xx", "x")] (fun s => s) =
      [("xxx", ⟨"x", "xx", 2⟩)] ∧
    (("x", "xx") : String × String) ≠ ("xx", "x") := by
  refine ⟨by decide, by decide⟩

/-- C7 amended: count_relations accumulates each pair into the edge
identified by the concatenated string key_of(earlier) ++ key_of(later):
every processed pair has an edge under its concatenated key, and two pairs
accumulate into the same edge exactly when their concatenated keys are equal
- so equal ordered key pairs always share an edge, but distinct ordered key
pairs whose concatenations coincide (such as (A,B) versus (B,A) with
A ++ B = B ++ A) are conflated into one edge. -/
theorem C7_amended_edges_keyed_by_concatenation {T : Type}
    (relations : List (T × T)) (get_item_key : T → String) :
    (∀ p ∈ relations,
      (lookupEdge (count_relations relations get_item_key)
        (relationKey get_item_key p)).isSome = true) ∧
    (∀ (k : String) (e : Edge),
      lookupEdge (count_relations relations get_item_key) k = some e →
        e.count = relations.countP
          (fun p => decide (relationKey get_item_key p = k))) := by
  have hmain := edgeCount_count_relations get_item_key relations []
  constructor
  · intro p hp
    have hpos : 0 < relations.countP
        (fun q => decide (relationKey get_item_key q = relationKey get_item_key p)) :=
      List.countP_pos_iff.mpr ⟨p, hp, by simp⟩
    have h := hmain (relationKey get_item_key p)
    unfold count_relations
    cases hlk : lookupEdge (relations.foldl (addRelation get_item_key) [])
        (relationKey get_item_key p) with
    | some e => simp
    | none =>
      unfold edgeCount at h
      rw [hlk] at h
      simp only [lookupEdge] at h
      omega
  · intro k e hlk
    have h := hmain k
    unfold count_relations at hlk
    unfold edgeCount at h
    rw [hlk] at h
    simpa only [lookupEdge, Nat.zero_add] using h

/-- C7 witness: the amended statement evaluated at the single pair
("a", "b") with the identity key function; its edge sits under "ab". -/
theorem C7_amended_witness :
    (lookupEdge (count_relations [(("a" : String), ("b" : String))] (fun s => s))
      (relationKey (fun s : String => s) ("a", "b"))).isSome = true :=
  (C7_amended_edges_keyed_by_concatenation [("a", "b")] (fun s => s)).1 ("a", "b")
    (by simp)

/-- Helper: inc_bucket never changes the bucket bounds. -/
theorem inc_bucket_map_fst (v : Int) :
    ∀ bs : List (Int × Nat), (inc_bucket bs v).map Prod.fst = bs.map Prod.fst := by
  intro bs
  induction bs with
  | nil => rfl
  | cons b bs ih =>
    by_cases h : v < b.1
    · simp [inc_bucket, h]
    · simp [inc_bucket, h, ih]

/-- Helper: one inc_bucket call adds 1 to the total count when the value is
below some bound, and adds nothing at all otherwise. -/
theorem inc_bucket_sum (v : Int) :
    ∀ bs : List (Int × Nat),
      ((inc_bucket bs v).map Prod.snd).sum =
        (bs.map Prod.snd).sum +
          (if fitsSomeBucket (bs.map Prod.fst) v then 1 else 0) := by
  intro bs
  induction bs with
  | nil => simp [inc_bucket, fitsSomeBucket]
  | cons b bs ih =>
    by_cases h : v < b.1
    · simp [inc_bucket, h, fitsSomeBucket]
      omega
    · simp only [inc_bucket, if_neg h, List.map_cons, List.sum_cons]
      rw [ih]
      have hfit : fitsSomeBucket (b.1 :: bs.map Prod.fst) v =
          fitsSomeBucket (bs.map Prod.fst) v := by
        simp [fitsSomeBucket, h]
      simp only [hfit]
      omega

/-- Helper: folding inc_bucket over a value list adds exactly the number of
values that fall below some bucket bound; values at or above every bound are
dropped. -/
theorem inc_bucket_foldl_sum :
    ∀ (values : List Int) (bs : List (Int × Nat)),
      ((values.foldl inc_bucket bs).map Prod.snd).sum =
        (bs.map Prod.snd).sum +
          values.countP (fun v => fitsSomeBucket (bs.map Prod.fst) v) := by
  intro values
  induction values with
  | nil => intro bs; simp
  | cons v vs ih =>
    intro bs
    rw [List.foldl_cons, ih, inc_bucket_map_fst, inc_bucket_sum, List.countP_cons]
    by_cases h : fitsSomeBucket (bs.map Prod.fst) v = true <;> simp [h] <;> omega

/-- Helper: incrementing one in-range cell of a count list adds 1 to its
sum. -/
theorem sum_set_incr :
    ∀ (l : List Nat) (n : Nat), n < l.length →
      (l.set n (l.getD n 0 + 1)).sum = l.sum + 1 := by
  intro l
  induction l with
  | nil => intro n hn; simp at hn
  | cons x xs ih =>
    intro n hn
    cases n with
    | zero => simp [List.getD]; omega
    | succ m =>
      simp only [List.set, List.getD_cons_succ, List.sum_cons]
      rw [ih m (by simpa using hn)]
      omega

/-- Helper: the advance loop of _distribute_durations appends cells summing
to exactly 1 (zeros plus one 1). -/
theorem ddAdvance_sum (buckets : List Int) (d : Int) :
    ∀ (fuel ndx : Nat) (cnts : List Nat),
      ((ddAdvance buckets d fuel ndx cnts).1).sum = cnts.sum + 1 := by
  intro fuel
  induction fuel with
  | zero => intro ndx cnts; simp [ddAdvance]
  | succ fuel ih =>
    intro ndx cnts
    by_cases h : ndx < buckets.length ∧ d > buckets.getD ndx 0
    · rw [ddAdvance, if_pos h, ih]
      simp
    · rw [ddAdvance, if_neg h]
      simp

/-- Helper: the advance loop keeps bucket_cnt exactly one cell longer than
the final bucket_ndx. -/
theorem ddAdvance_len (buckets : List Int) (d : Int) :
    ∀ (fuel ndx : Nat) (cnts : List Nat), cnts.length = ndx →
      ((ddAdvance buckets d fuel ndx cnts).1).length =
        (ddAdvance buckets d fuel ndx cnts).2 + 1 := by
  intro fuel
  induction fuel with
  | zero => intro ndx cnts hlen; simp [ddAdvance, hlen]
  | succ fuel ih =>
    intro ndx cnts hlen
    by_cases h : ndx < buckets.length ∧ d > buckets.getD ndx 0
    · rw [ddAdvance, if_pos h]
      exact ih (ndx + 1) (cnts ++ [0]) (by simp [hlen])
    · rw [ddAdvance, if_neg h]
      simp [hlen]

/-- Helper: every duration processed by _distribute_durations increments
exactly one cell, so the counts sum to the initial sum plus the number of
durations - for every input, sorted or not. -/
theorem distributeLoop_sum (buckets : List Int) :
    ∀ (ds : List Int) (cnts : List Nat) (ndx : Nat), cnts.length = ndx + 1 →
      (distributeLoop buckets ds cnts ndx).sum = cnts.sum + ds.length := by
  intro ds
  induction ds with
  | nil => intro cnts ndx _; simp [distributeLoop]
  | cons d ds ih =>
    intro cnts ndx hlen
    by_cases h : buckets.length ≤ ndx ∨ d ≤ buckets.getD ndx 0
    · rw [distributeLoop, if_pos h]
      rw [ih _ ndx (by simp [hlen]), sum_set_incr cnts ndx (by omega)]
      simp
      omega
    · rw [distributeLoop, if_neg h]
      have hpre : cnts.length = ndx + 1 := hlen
      rw [ih _ _ (ddAdvance_len buckets d _ (ndx + 1) cnts hpre),
        ddAdvance_sum buckets d _ (ndx + 1) cnts]
      simp
      omega

/-- C8 counterexample: inc_bucket has no trailing overflow bucket; with the
single bound 5 and the value 10, no count is incremented and the counts sum
to 0, not to the number of input values (1). -/
theorem C8_counterexample_overflow_dropped :
    ((List.foldl inc_bucket [((5 : Int), (0 : Nat))] [10]).map Prod.snd).sum = 0 ∧
    ([(10 : Int)] : List Int).length = 1 ∧ (0 : Nat) ≠ 1 := by
  refine ⟨by decide, by decide, by decide⟩

/-- C8 amended: conservation holds for _distribute_durations - for every
durations list the bucket counts sum to the number of inputs, with values
beyond the last boundary counted in the trailing overflow cell - but not for
inc_bucket, which increments the first bucket whose bound exceeds the value
and silently drops any value at or above every bound: its counts grow by the
number of values below some bound, and no trailing overflow bucket exists. -/
theorem C8_amended_conservation :
    (∀ durations : List Int,
      ((_distribute_durations durations).2.1).sum = durations.length) ∧
    (∀ (buckets : List (Int × Nat)) (values : List Int),
      ((values.foldl inc_bucket buckets).map Prod.snd).sum =
        (buckets.map Prod.snd).sum +
          values.countP (fun v => fitsSomeBucket (buckets.map Prod.fst) v)) := by
  constructor
  · intro durations
    have h := distributeLoop_sum ddBuckets durations [0] 0 (by decide)
    simpa [_distribute_durations] using h
  · intro buckets values
    exact inc_bucket_foldl_sum values buckets

/-- Helper: the target bucket index never exceeds the boundary count. -/
theorem targetIdx_le_length (d : Int) :
    ∀ buckets : List Int, targetIdx buckets d ≤ buckets.length := by
  intro buckets
  induction buckets with
  | nil => simp [targetIdx]
  | cons b bs ih =>
    by_cases h : d ≤ b
    · simp [targetIdx, h]
    · simp only [targetIdx, if_neg h, List.length_cons]
      omega

/-- Helper: the target bucket index is monotone in the value. -/
theorem targetIdx_mono (d d2 : Int) (hd : d ≤ d2) :
    ∀ buckets : List Int, targetIdx buckets d ≤ targetIdx buckets d2 := by
  intro buckets
  induction buckets with
  | nil => simp [targetIdx]
  | cons b bs ih =>
    by_cases h2 : d2 ≤ b
    · have h1 : d ≤ b := le_trans hd h2
      simp [targetIdx, h1, h2]
    · by_cases h1 : d ≤ b
      · simp only [targetIdx, if_pos h1, if_neg h2]
        omega
      · simp only [targetIdx, if_neg h1, if_neg h2]
        omega

/-- Helper: a boundary at index i that bounds d puts the target index at or
below i. -/
theorem targetIdx_le_of_le_getD (d : Int) :
    ∀ (buckets : List Int) (i : Nat), i < buckets.length → d ≤ buckets.getD i 0 →
      targetIdx buckets d ≤ i := by
  intro buckets
  induction buckets with
  | nil => intro i hi; simp at hi
  | cons b bs ih =>
    intro i hi hd
    cases i with
    | zero =>
      simp only [List.getD_cons_zero] at hd
      simp [targetIdx, hd]
    | succ m =>
      by_cases h : d ≤ b
      · simp [targetIdx, h]
      · simp only [targetIdx, if_neg h]
        have := ih m (by simpa using hi) (by simpa using hd)
        omega

/-- Helper: when the target index is in range, its boundary bounds d. -/
theorem le_getD_targetIdx (d : Int) :
    ∀ buckets : List Int, targetIdx buckets d < buckets.length →
      d ≤ buckets.getD (targetIdx buckets d) 0 := by
  intro buckets
  induction buckets with
  | nil => intro h; simp [targetIdx] at h
  | cons b bs ih =>
    intro h
    by_cases hb : d ≤ b
    · simpa [targetIdx, hb] using hb
    · simp only [targetIdx, if_neg hb] at h ⊢
      simp only [List.getD_cons_succ]
      exact ih (by simpa using h)

/-- Helper: the target index is never an index whose boundary is below d. -/
theorem targetIdx_ne_of_getD_lt (d : Int) (buckets : List Int) (ndx : Nat)
    (h1 : ndx < buckets.length) (h2 : buckets.getD ndx 0 < d) :
    targetIdx buckets d ≠ ndx := by
  intro he
  have := le_getD_targetIdx d buckets (by omega)
  rw [he] at this
  omega

/-- Helper: the advance loop stops exactly at the target bucket index of the
duration being placed, appending zeros up to it and a 1 at it. -/
theorem ddAdvance_char (buckets : List Int) (d : Int) :
    ∀ (fuel start : Nat) (cnts : List Nat),
      start ≤ targetIdx buckets d →
      fuel = buckets.length - start →
      ddAdvance buckets d fuel start cnts =
        (cnts ++ List.replicate (targetIdx buckets d - start) 0 ++ [1],
          targetIdx buckets d) := by
  intro fuel
  induction fuel with
  | zero =>
    intro start cnts hle hfuel
    have hlen := targetIdx_le_length d buckets
    have heq : targetIdx buckets d = start := by omega
    rw [ddAdvance, heq]
    simp
  | succ fuel ih =>
    intro start cnts hle hfuel
    by_cases h : start < buckets.length ∧ d > buckets.getD start 0
    · have hne : targetIdx buckets d ≠ start := targetIdx_ne_of_getD_lt d buckets start h.1 h.2
      have hlt : start < targetIdx buckets d := by omega
      rw [ddAdvance, if_pos h, ih (start + 1) (cnts ++ [0]) (by omega) (by omega)]
      have hrep : List.replicate (targetIdx buckets d - start) (0 : Nat) =
          0 :: List.replicate (targetIdx buckets d - (start + 1)) 0 := by
        have : targetIdx buckets d - start = (targetIdx buckets d - (start + 1)) + 1 := by
          omega
        rw [this, List.replicate_succ]
      rw [hrep]
      simp
    · have heq : targetIdx buckets d = start := by
        rcases Nat.lt_or_ge start buckets.length with hlt | hge
        · have hd : d ≤ buckets.getD start 0 := by
            by_contra hc
            exact h ⟨hlt, by omega⟩
          have := targetIdx_le_of_le_getD d buckets start hlt hd
          omega
        · have := targetIdx_le_length d buckets
          omega
      rw [ddAdvance, if_neg h, heq]
      simp

/-- Helper: reading any position of a zero block yields 0. -/
theorem getD_replicate_zero :
    ∀ (k j : Nat), (List.replicate k (0 : Nat)).getD j 0 = 0 := by
  intro k
  induction k with
  | zero => intro j; simp
  | succ k ih =>
    intro j
    cases j with
    | zero => simp [List.replicate_succ]
    | succ m => simp [List.replicate_succ, List.getD_cons_succ, ih m]

/-- Helper: reading after writing one in-range cell. -/
theorem getD_set_eq_if :
    ∀ (l : List Nat) (n v i : Nat), n < l.length →
      (l.set n v).getD i 0 = if i = n then v else l.getD i 0 := by
  intro l
  induction l with
  | nil => intro n v i hn; simp at hn
  | cons x xs ih =>
    intro n v i hn
    cases n with
    | zero =>
      cases i with
      | zero => simp
      | succ j => simp [List.getD_cons_succ]
    | succ m =>
      cases i with
      | zero => simp
      | succ j =>
        simp only [List.set, List.getD_cons_succ]
        rw [ih m v j (by simpa using hn)]
        by_cases hjm : j = m
        · simp [hjm]
        · simp [hjm, fun h => hjm (Nat.succ_injective h)]

/-- Helper: reading a position of bucket_cnt after the advance loop appended
its zero block and trailing 1. -/
theorem getD_block (cnts : List Nat) (z i : Nat) :
    (cnts ++ List.replicate z 0 ++ [1]).getD i 0 =
      if i < cnts.length then cnts.getD i 0
      else if i = cnts.length + z then 1
      else 0 := by
  by_cases h1 : i < cnts.length
  · rw [if_pos h1]
    rw [List.getD_append _ _ _ _ (by simp; omega)]
    rw [List.getD_append _ _ _ _ h1]
  · rw [if_neg h1]
    by_cases h2 : i = cnts.length + z
    · rw [if_pos h2]
      rw [List.getD_append_right _ _ _ _ (by simp; omega)]
      simp [h2]
    · rw [if_neg h2]
      by_cases h3 : i < cnts.length + z
      · rw [List.getD_append _ _ _ _ (by simp; omega)]
        rw [List.getD_append_right _ _ _ _ (by omega)]
        exact getD_replicate_zero z (i - cnts.length)
      · rw [List.getD_eq_default]
        simp
        omega

/-- Helper: the placement invariant of _distribute_durations on sorted
input: cell j of the result counts exactly the processed durations whose
target bucket index is j, given that the current index is at most every
remaining duration's target index. -/
theorem distributeLoop_char (buckets : List Int) :
    ∀ (ds : List Int) (cnts : List Nat) (ndx : Nat) (done : List Int),
      cnts.length = ndx + 1 →
      ndx ≤ buckets.length →
      (∀ j, cnts.getD j 0 = done.countP (fun x => targetIdx buckets x == j)) →
      (∀ x ∈ ds, ndx ≤ targetIdx buckets x) →
      (∀ x ∈ done, targetIdx buckets x ≤ ndx) →
      List.Pairwise (fun a b : Int => a ≤ b) ds →
      ∀ i, (distributeLoop buckets ds cnts ndx).getD i 0 =
        (done ++ ds).countP (fun x => targetIdx buckets x == i) := by
  intro ds
  induction ds with
  | nil =>
    intro cnts ndx done h1 h2 h3 h4 h5 h6 i
    simp only [distributeLoop, List.append_nil]
    exact h3 i
  | cons d ds ih =>
    intro cnts ndx done h1 h2 h3 h4 h5 h6 i
    have htd : ndx ≤ targetIdx buckets d := h4 d (List.mem_cons_self d ds)
    have hhead : ∀ x ∈ ds, d ≤ x := fun x hx => (List.pairwise_cons.mp h6).1 x hx
    have h6t : List.Pairwise (fun a b : Int => a ≤ b) ds := (List.pairwise_cons.mp h6).2
    have happ : ∀ j, ((done ++ [d]) ++ ds).countP (fun x => targetIdx buckets x == j) =
        (done ++ d :: ds).countP (fun x => targetIdx buckets x == j) := by
      intro j
      rw [List.append_assoc, List.singleton_append]
    by_cases hbr : buckets.length ≤ ndx ∨ d ≤ buckets.getD ndx 0
    · -- increment branch: the duration lands at the current index
      have htd_eq : targetIdx buckets d = ndx := by
        rcases hbr with hl | hle
        · have := targetIdx_le_length d buckets
          omega
        · by_cases hlt : ndx < buckets.length
          · exact le_antisymm (targetIdx_le_of_le_getD d buckets ndx hlt hle) htd
          · have := targetIdx_le_length d buckets
            omega
      rw [distributeLoop, if_pos hbr]
      have hset_len : (cnts.set ndx (cnts.getD ndx 0 + 1)).length = ndx + 1 := by
        simp [h1]
      have hset_getD : ∀ j, (cnts.set ndx (cnts.getD ndx 0 + 1)).getD j 0 =
          (done ++ [d]).countP (fun x => targetIdx buckets x == j) := by
        intro j
        rw [getD_set_eq_if cnts ndx _ j (by omega), List.countP_append]
        by_cases hj : j = ndx
        · rw [hj, if_pos rfl, h3 ndx]
          simp [List.countP_cons, htd_eq]
        · rw [if_neg hj, h3 j]
          simp only [List.countP_cons, List.countP_nil, beq_iff_eq, htd_eq]
          have hne4 : ¬ ndx = j := fun h => hj h.symm
          simp [hne4]
      have h4t : ∀ x ∈ ds, ndx ≤ targetIdx buckets x := by
        intro x hx
        have := targetIdx_mono d x (hhead x hx) buckets
        omega
      have h5t : ∀ x ∈ done ++ [d], targetIdx buckets x ≤ ndx := by
        intro x hx
        rcases List.mem_append.mp hx with hxd | hxs
        · exact h5 x hxd
        · have hxd2 : x = d := List.mem_singleton.mp hxs
          subst hxd2
          omega
      have hmain := ih (cnts.set ndx (cnts.getD ndx 0 + 1)) ndx (done ++ [d])
        hset_len h2 hset_getD h4t h5t h6t i
      rw [hmain, happ i]
    · -- advance branch: zeros are appended up to the duration's bucket
      have hnlt : ndx < buckets.length := by
        by_contra hc
        exact hbr (Or.inl (by omega))
      have hgtd : buckets.getD ndx 0 < d := by
        by_contra hc
        exact hbr (Or.inr (by omega))
      have hne := targetIdx_ne_of_getD_lt d buckets ndx hnlt hgtd
      have htlt : ndx < targetIdx buckets d := by omega
      rw [distributeLoop, if_neg hbr,
        ddAdvance_char buckets d (buckets.length - (ndx + 1)) (ndx + 1) cnts
          (by omega) rfl]
      have hlen2 : (cnts ++ List.replicate (targetIdx buckets d - (ndx + 1)) 0
          ++ [1]).length = targetIdx buckets d + 1 := by
        simp [h1]
        omega
      have hgetD2 : ∀ j, (cnts ++ List.replicate (targetIdx buckets d - (ndx + 1)) 0
          ++ [1]).getD j 0 =
          (done ++ [d]).countP (fun x => targetIdx buckets x == j) := by
        intro j
        rw [getD_block, List.countP_append, List.countP_cons]
        by_cases hj1 : j < cnts.length
        · rw [if_pos hj1, h3 j]
          have hne2 : ¬ targetIdx buckets d = j := by omega
          simp [hne2]
        · rw [if_neg hj1]
          have hdone0 : done.countP (fun x => targetIdx buckets x == j) = 0 := by
            rw [List.countP_eq_zero]
            intro x hx
            have := h5 x hx
            simp only [beq_iff_eq]
            omega
          by_cases hj2 : j = cnts.length + (targetIdx buckets d - (ndx + 1))
          · rw [if_pos hj2, hdone0]
            have hjt : targetIdx buckets d = j := by omega
            simp [hjt]
          · rw [if_neg hj2, hdone0]
            have hjt : ¬ targetIdx buckets d = j := by omega
            simp [hjt]
      have h4t : ∀ x ∈ ds, targetIdx buckets d ≤ targetIdx buckets x := by
        intro x hx
        exact targetIdx_mono d x (hhead x hx) buckets
      have h5t : ∀ x ∈ done ++ [d], targetIdx buckets x ≤ targetIdx buckets d := by
        intro x hx
        rcases List.mem_append.mp hx with hxd | hxs
        · have := h5 x hxd
          omega
        · have hxd2 : x = d := List.mem_singleton.mp hxs
          subst hxd2
          omega
      have hmain := ih (cnts ++ List.replicate (targetIdx buckets d - (ndx + 1)) 0
          ++ [1]) (targetIdx buckets d) (done ++ [d]) hlen2
        (targetIdx_le_length d buckets) hgetD2 h4t h5t h6t i
      rw [hmain, happ i]

/-- C10: on every ascending-sorted durations list, _distribute_durations
counts each duration in the bucket of the least boundary at or above it
(cell i holds the number of durations with target index i, overflow in the
trailing cell) and the counts sum to the input length; but on the unsorted
input [5, 1] the duration 1, whose target bucket index is 1, is counted in
the strictly later bucket 2 (the counts are [0, 0, 2] and cell 1 holds 0,
not 1), because the internal bucket index only ever advances. -/
theorem C10_distribute_durations_placement :
    (∀ durations : List Int, List.Pairwise (fun a b : Int => a ≤ b) durations →
      ((_distribute_durations durations).2.1).sum = durations.length ∧
      ∀ i, ((_distribute_durations durations).2.1).getD i 0 =
        durations.countP (fun x => targetIdx ddBuckets x == i)) ∧
    ((_distribute_durations [5, 1]).2.1 = [0, 0, 2] ∧
      targetIdx ddBuckets 1 = 1 ∧
      ((_distribute_durations [5, 1]).2.1).getD 1 0 = 0 ∧
      ([(5 : Int), 1].countP (fun x => targetIdx ddBuckets x == 1)) = 1) := by
  constructor
  · intro durations hsorted
    constructor
    · simpa [_distribute_durations] using
        distributeLoop_sum ddBuckets durations [0] 0 (by decide)
    · intro i
      have h := distributeLoop_char ddBuckets durations [0] 0 []
        (by decide) (Nat.zero_le _)
        (by intro j; cases j <;> simp)
        (fun x _ => Nat.zero_le _)
        (by intro x hx; simp at hx)
        hsorted i
      simpa [_distribute_durations] using h
  · refine ⟨by decide, by decide, by decide, by decide⟩

/-- C10 witness: the sorted-input half evaluated at the concrete sorted
list [1, 5]. -/
theorem C10_distribute_durations_placement_witness :
    ((_distribute_durations [1, 5]).2.1).sum = ([1, 5] : List Int).length :=
  (C10_distribute_durations_placement.1 [1, 5] (by decide)).1
